import Mathlib

/-!
Verification of the Morse-code audio steganography codec
(`morse_utils.py` and `steg_core.py`).

Python strings are modelled as `List Char`; 16-bit signed audio samples
are modelled by their 16-bit two's-complement bit pattern, a `Nat`
strictly below `2 ^ 16`, with `signedVal` giving the signed value.
Python exceptions are modelled by `Except StegErr`.
-/

namespace MorseStegano

/-- Errors of the steganography core.  `messageTooLong` carries the
maximum embeddable bit count reported in the exception message;
`indexError` models a Python `IndexError`; `zeroDivision` models a
Python `ZeroDivisionError` raised by `i % (total // 100)`. -/
inductive StegErr where
  | messageTooLong (maxBits : Nat)
  | messageNotFound
  | indexError
  | zeroDivision
deriving DecidableEq, Repr

/-! ### Python string primitives on `List Char` -/

/-- Python `s[:-n]`: everything but the last `n` characters (clamped at empty). -/
def dropLastN (n : Nat) (l : List Char) : List Char :=
  l.take (l.length - n)

/-- Python `s.rstrip('0')`: remove all trailing `'0'` characters. -/
def rstrip0 (l : List Char) : List Char :=
  (l.reverse.dropWhile (fun c => c = '0')).reverse

/-- Python whitespace characters (the set `str.split()` splits on). -/
def isSpaceChar (c : Char) : Bool :=
  c = ' ' || c = '\t' || c = '\n' || c = '\r' || c = '\x0b' || c = '\x0c'

/-- Python `s.strip()`: remove leading and trailing whitespace. -/
def pyStrip (l : List Char) : List Char :=
  ((l.dropWhile isSpaceChar).reverse.dropWhile isSpaceChar).reverse

/-- Python `s.split(sep)` for a one-character separator: splits at every
occurrence of `sep`, keeping empty pieces; the result is never empty. -/
def pySplitChar (sep : Char) : List Char → List (List Char)
  | [] => [[]]
  | c :: rest =>
    match pySplitChar sep rest with
    | [] => [[]]
    | g :: gs => if c = sep then [] :: g :: gs else (c :: g) :: gs

/-- Python `s.split()` (no argument), auxiliary: splits on runs of
whitespace, dropping empty tokens; `acc` is the current token reversed. -/
def pySplitWsAux : List Char → List Char → List (List Char)
  | [], acc => if acc = [] then [] else [acc.reverse]
  | c :: rest, acc =>
    if isSpaceChar c then
      if acc = [] then pySplitWsAux rest []
      else acc.reverse :: pySplitWsAux rest []
    else pySplitWsAux rest (c :: acc)

/-- Python `s.split()` (no argument). -/
def pySplitWs (l : List Char) : List (List Char) :=
  pySplitWsAux l []

/-- Python `sep.join(pieces)` for a one-character separator. -/
def joinSep (sep : Char) : List (List Char) → List Char
  | [] => []
  | [x] => x
  | x :: y :: rest => x ++ sep :: joinSep sep (y :: rest)

/-! ### `morse_utils.py` -/

/-- `MORSE_CODE_DICT` from `morse_utils.py`, in source (insertion) order. -/
def MORSE_PAIRS : List (Char × List Char) :=
  [('A', ['.', '-']), ('B', ['-', '.', '.', '.']), ('C', ['-', '.', '-', '.']),
   ('D', ['-', '.', '.']), ('E', ['.']), ('F', ['.', '.', '-', '.']),
   ('G', ['-', '-', '.']), ('H', ['.', '.', '.', '.']), ('I', ['.', '.']),
   ('J', ['.', '-', '-', '-']), ('K', ['-', '.', '-']), ('L', ['.', '-', '.', '.']),
   ('M', ['-', '-']), ('N', ['-', '.']), ('O', ['-', '-', '-']),
   ('P', ['.', '-', '-', '.']), ('Q', ['-', '-', '.', '-']), ('R', ['.', '-', '.']),
   ('S', ['.', '.', '.']), ('T', ['-']), ('U', ['.', '.', '-']),
   ('V', ['.', '.', '.', '-']), ('W', ['.', '-', '-']), ('X', ['-', '.', '.', '-']),
   ('Y', ['-', '.', '-', '-']), ('Z', ['-', '-', '.', '.']),
   ('1', ['.', '-', '-', '-', '-']), ('2', ['.', '.', '-', '-', '-']),
   ('3', ['.', '.', '.', '-', '-']), ('4', ['.', '.', '.', '.', '-']),
   ('5', ['.', '.', '.', '.', '.']), ('6', ['-', '.', '.', '.', '.']),
   ('7', ['-', '-', '.', '.', '.']), ('8', ['-', '-', '-', '.', '.']),
   ('9', ['-', '-', '-', '-', '.']), ('0', ['-', '-', '-', '-', '-']),
   (',', ['-', '-', '.', '.', '-', '-']), ('.', ['.', '-', '.', '-', '.', '-']),
   ('?', ['.', '.', '-', '-', '.', '.']), ('/', ['-', '.', '.', '-', '.']),
   ('-', ['-', '.', '.', '.', '.', '-']), ('(', ['-', '.', '-', '-', '.']),
   (')', ['-', '.', '-', '-', '.', '-']), (' ', ['/'])]

/-- `MORSE_CODE_DICT.get(c)`: the keys of the dict are distinct, so a
first-match lookup over the insertion-ordered pairs models `dict.get`. -/
def morseLookup (c : Char) : Option (List Char) :=
  (MORSE_PAIRS.find? (fun p => p.1 = c)).map (fun p => p.2)

/-- `REVERSE_MORSE_CODE_DICT.get(code)`: the reverse dict is built by the
comprehension `{v: k for k, v in MORSE_CODE_DICT.items()}`, where a later
pair with the same value overwrites an earlier one, so the model searches
the pairs in reverse order. -/
def reverseLookup (code : List Char) : Option Char :=
  (MORSE_PAIRS.reverse.find? (fun p => p.2 = code)).map (fun p => p.1)

/-- `text_to_morse` (`morse_utils.py`, lines 23-37): per-character lookup
of the uppercased character, unknown characters become the empty string,
joined with single spaces. -/
def text_to_morse (text : List Char) : List Char :=
  joinSep ' ' (text.map (fun c => (morseLookup c.toUpper).getD []))

/-- `morse_to_text` (`morse_utils.py`, lines 39-53): split on whitespace,
look each token up in the reverse dict, drop unknown tokens, concatenate. -/
def morse_to_text (morse : List Char) : List Char :=
  (pySplitWs morse).filterMap reverseLookup

/-! ### `steg_core.py`: Morse ↔ bitstream -/

/-- `END_MARKER_BITS` (`steg_core.py`, line 26): twenty `'0'` characters. -/
def END_MARKER_BITS : List Char :=
  List.replicate 20 '0'

/-- One symbol's contribution inside `morse_to_bitstream`: `'1'`
repeated three times for a dash and once for any other character
(dot, the `'|'` sentinel, ...), followed by one `'0'`. -/
def symbolBits (sym : Char) : List Char :=
  (if sym = '-' then ['1', '1', '1'] else ['1']) ++ ['0']

/-- The body of the `for char in word.split(' ')` loop of
`morse_to_bitstream`: emit all symbols of one character, then replace
the final emitted bit by the three-zero inter-character gap. -/
def encodeChar (bs : List Char) (c : List Char) : List Char :=
  dropLastN 1 (c.foldl (fun acc sym => acc ++ symbolBits sym) bs) ++ ['0', '0', '0']

/-- The body of the `for word in morse.split('/')` loop of
`morse_to_bitstream`: emit all characters of one word, then replace the
final three bits by the seven-zero inter-word gap. -/
def encodeWord (bs : List Char) (w : List Char) : List Char :=
  dropLastN 3 ((pySplitChar ' ' w).foldl encodeChar bs) ++ List.replicate 7 '0'

/-- `morse_to_bitstream` (`steg_core.py`, lines 28-48): append the `'|'`
sentinel, encode word by word, strip all trailing zeros, append the
20-zero end marker. -/
def morse_to_bitstream (morse : List Char) : List Char :=
  rstrip0 ((pySplitChar '/' (morse ++ ['|'])).foldl encodeWord []) ++ END_MARKER_BITS

/-- `bits.index(END_MARKER_BITS)` guarded by `END_MARKER_BITS in bits`:
the least index at which the 20-zero marker occurs as a substring, if any. -/
def findMarker (bits : List Char) : Option Nat :=
  (List.range bits.length).find? (fun i => decide ((bits.drop i).take 20 = END_MARKER_BITS))

/-- Whether `bits` contains `n` consecutive `'0'` characters. -/
def hasZeroRun (n : Nat) (bits : List Char) : Bool :=
  (List.range bits.length).any (fun i => (bits.drop i).take n == List.replicate n '0')

/-- The run-collection loop of `bitstream_to_morse` (lines 68-77):
maximal runs of identical characters as `(character, length)` pairs. -/
def collectRuns : List Char → Char → Nat → List (Char × Nat)
  | [], prev, count => [(prev, count)]
  | b :: rest, prev, count =>
    if b = prev then collectRuns rest prev (count + 1)
    else (prev, count) :: collectRuns rest b 1

/-- Classification of one run (`bitstream_to_morse`, lines 80-87):
a `'1'`-run of length ≥ 3 is a dash, shorter a dot; a `'0'`-run of
length ≥ 7 is an inter-word gap, of length 3-6 an inter-character gap,
shorter runs contribute nothing. -/
def runSymbol (bit : Char) (len : Nat) : List Char :=
  if bit = '1' then (if 3 ≤ len then ['-'] else ['.'])
  else if 7 ≤ len then [' ', '/', ' ']
  else if 3 ≤ len then [' ']
  else []

/-- The run-classification loop of `bitstream_to_morse`. -/
def runsToMorse (runs : List (Char × Nat)) : List Char :=
  runs.foldl (fun acc r => acc ++ runSymbol r.1 r.2) []

/-- Decoding of the bitstream prefix that precedes the end marker
(`bitstream_to_morse` after line 67).  `runs, prev, count = [], bits[0], 1`
raises `IndexError` when the truncated bitstream is empty. -/
def decodeTruncated (t : List Char) : Except StegErr (List Char) :=
  match t with
  | [] => .error .indexError
  | b :: rest => .ok (pyStrip (runsToMorse (collectRuns rest b 1)))

/-- `bitstream_to_morse` (`steg_core.py`, lines 50-88): fail with
`MessageNotFoundError` when the 20-zero marker is absent, otherwise
decode the prefix before its first occurrence. -/
def bitstream_to_morse (bits : List Char) : Except StegErr (List Char) :=
  match findMarker bits with
  | none => .error .messageNotFound
  | some i => decodeTruncated (bits.take i)

/-! ### `steg_core.py`: LSB embedding and extraction

A sample is the 16-bit two's-complement pattern of a numpy `int16`; the
numpy expression `(s & ~1) | bit` acts on that pattern with `~1 = 0xFFFE`. -/

/-- Signed value of a 16-bit two's-complement pattern. -/
def signedVal (p : Nat) : Int :=
  if p < 32768 then (p : Int) else (p : Int) - 65536

/-- `int(bit)` for a bitstream character. -/
def bitVal (b : Char) : Nat :=
  if b = '1' then 1 else 0

/-- One assignment `samples_mod[i] = (samples_mod[i] & ~1) | int(bit)`
(`steg_core.py`, line 153). -/
def embedSample (s : Nat) (b : Char) : Nat :=
  Nat.lor (Nat.land s 0xFFFE) (bitVal b)

/-- The embedding loop (`steg_core.py`, lines 152-153): the first
`len(bits)` samples get their LSB overwritten, the rest are unchanged. -/
def embedLoop : List Nat → List Char → List Nat
  | ss, [] => ss
  | [], _ :: _ => []
  | s :: ss, b :: bs => embedSample s b :: embedLoop ss bs

/-- The core of `embed_message` (`steg_core.py`, lines 142-155) on an
already-serialized bitstream: capacity check first, then the loop.
`cb` records whether a progress callback was supplied; with a callback
the first loop iteration evaluates `0 % (total_bits // 100)`, which
raises `ZeroDivisionError` when `total_bits < 100` (and the loop runs,
i.e. the bitstream is non-empty). -/
def embed_bits (samples : List Nat) (bits : List Char) (cb : Bool) :
    Except StegErr (List Nat) :=
  if samples.length < bits.length then .error (.messageTooLong samples.length)
  else if cb && !bits.isEmpty && bits.length < 100 then .error .zeroDivision
  else .ok (embedLoop samples bits)

/-- `embed_message` (`steg_core.py`, lines 114-166), with WAV I/O
abstracted to the flat sample sequence: serialize the message through
`text_to_morse` and `morse_to_bitstream`, then embed. -/
def embed_message (samples : List Nat) (message : List Char) (cb : Bool) :
    Except StegErr (List Nat) :=
  embed_bits samples (morse_to_bitstream (text_to_morse message)) cb

/-- `str(sample & 1)`: the LSB of one sample as a bitstream character. -/
def lsbChar (s : Nat) : Char :=
  if Nat.land s 1 = 1 then '1' else '0'

/-- The bit-extraction loop of `extract_message` (lines 196-201).  As in
`embed_bits`, a supplied callback makes the first iteration evaluate
`0 % (total_samples // 100)`, raising `ZeroDivisionError` when
`0 < total_samples < 100`. -/
def extract_bits (samples : List Nat) (cb : Bool) : Except StegErr (List Char) :=
  if cb && !samples.isEmpty && samples.length < 100 then .error .zeroDivision
  else .ok (samples.map lsbChar)

/-- `extract_message` (`steg_core.py`, lines 168-210), with WAV I/O
abstracted to the flat sample sequence: extract the LSBs, decode the
bitstream to Morse, convert Morse to text.  The `except` clause re-raises
`MessageNotFoundError` as the same kind, which is transparent here. -/
def extract_message (samples : List Nat) (cb : Bool) : Except StegErr (List Char) :=
  (extract_bits samples cb).bind
    (fun bits => (bitstream_to_morse bits).map morse_to_text)

/-! ### Arithmetic characterization of the LSB operations -/

lemma land_mask_eq (p : Nat) : p &&& 0xFFFE = 2 * ((p / 2) % 32768) := by
  apply Nat.eq_of_testBit_eq
  intro i
  match i with
  | 0 =>
    rw [Nat.testBit_and]
    simp [Nat.testBit_zero, Nat.mul_mod_right]
  | i + 1 =>
    rw [Nat.testBit_and]
    have hm : (0xFFFE : Nat) = 2 * (2 ^ 15 - 1) := by norm_num
    have h2 : ∀ y : Nat, Nat.testBit (2 * y) (i + 1) = Nat.testBit y i := by
      intro y
      rw [Nat.testBit_add_one, Nat.mul_div_cancel_left y (by norm_num : 0 < 2)]
    rw [hm, h2, h2, Nat.testBit_two_pow_sub_one]
    have h15 : (32768 : Nat) = 2 ^ 15 := by norm_num
    rw [h15, Nat.testBit_mod_two_pow, Nat.testBit_div_two]
    exact Bool.and_comm _ _

lemma lor_one_of_even (p : Nat) (h : p % 2 = 0) : p ||| 1 = p + 1 := by
  apply Nat.eq_of_testBit_eq
  intro i
  match i with
  | 0 =>
    rw [Nat.testBit_or]
    simp only [Nat.testBit_zero]
    have h1 : (p + 1) % 2 = 1 := by omega
    simp [h1]
  | i + 1 =>
    rw [Nat.testBit_or]
    have hhalf : (p + 1) / 2 = p / 2 := by omega
    have h1 : Nat.testBit 1 (i + 1) = false := by
      rw [Nat.testBit_add_one]
      simp
    rw [h1, Nat.testBit_add_one (p + 1), hhalf, ← Nat.testBit_add_one p]
    simp

lemma bitVal_le_one (b : Char) : bitVal b ≤ 1 := by
  unfold bitVal
  split <;> omega

lemma embedSample_eq (s : Nat) (b : Char) (h : s < 65536) :
    embedSample s b = s - s % 2 + bitVal b := by
  unfold embedSample
  have hland : Nat.land s 0xFFFE = s - s % 2 := by
    have := land_mask_eq s
    have hs : (s / 2) % 32768 = s / 2 := Nat.mod_eq_of_lt (by omega)
    calc Nat.land s 0xFFFE = s &&& 0xFFFE := rfl
    _ = 2 * ((s / 2) % 32768) := land_mask_eq s
    _ = 2 * (s / 2) := by rw [hs]
    _ = s - s % 2 := by omega
  rw [hland]
  by_cases hb : b = '1'
  · have hv : bitVal b = 1 := by simp [bitVal, hb]
    rw [hv]
    have heven : (s - s % 2) % 2 = 0 := by omega
    calc Nat.lor (s - s % 2) 1 = (s - s % 2) ||| 1 := rfl
    _ = s - s % 2 + 1 := lor_one_of_even _ heven
  · have hv : bitVal b = 0 := by simp [bitVal, hb]
    rw [hv]
    calc Nat.lor (s - s % 2) 0 = (s - s % 2) ||| 0 := rfl
    _ = s - s % 2 := Nat.or_zero _

lemma embedSample_lt (s : Nat) (b : Char) (h : s < 65536) : embedSample s b < 65536 := by
  have := embedSample_eq s b h
  have := bitVal_le_one b
  omega

/-! ### Structure of the embedding loop -/

lemma embedLoop_length (ss : List Nat) (bs : List Char) :
    (embedLoop ss bs).length = ss.length := by
  induction ss generalizing bs with
  | nil => cases bs <;> rfl
  | cons s ss ih =>
    cases bs with
    | nil => rfl
    | cons b bs => simp [embedLoop, ih]

lemma embedLoop_getD_lt (ss : List Nat) (bs : List Char) (i : Nat)
    (hi : i < bs.length) (hcap : bs.length ≤ ss.length) :
    (embedLoop ss bs).getD i 0 = embedSample (ss.getD i 0) (bs.getD i ' ') := by
  induction ss generalizing bs i with
  | nil => cases bs with
    | nil => simp at hi
    | cons b bs => simp at hcap
  | cons s ss ih =>
    cases bs with
    | nil => simp at hi
    | cons b bs =>
      cases i with
      | zero => rfl
      | succ i =>
        simp only [embedLoop, List.getD_cons_succ]
        exact ih bs i (by simpa using hi) (by simpa using hcap)

lemma embedLoop_getD_ge (ss : List Nat) (bs : List Char) (i : Nat)
    (hi : bs.length ≤ i) :
    (embedLoop ss bs).getD i 0 = ss.getD i 0 := by
  induction ss generalizing bs i with
  | nil => cases bs <;> rfl
  | cons s ss ih =>
    cases bs with
    | nil => rfl
    | cons b bs =>
      cases i with
      | zero => simp at hi
      | succ i =>
        simp only [embedLoop, List.getD_cons_succ]
        exact ih bs i (by simpa using hi)

lemma signedVal_sub_le (s e : Nat) (hs : s < 65536) (he : e = s - s % 2 + bitVal b) :
    (signedVal e - signedVal s).natAbs ≤ 1 := by
  have hb := bitVal_le_one b
  unfold signedVal
  split <;> split <;> omega

lemma embed_bits_ok (samples : List Nat) (bits : List Char)
    (h : bits.length ≤ samples.length) :
    embed_bits samples bits false = .ok (embedLoop samples bits) := by
  unfold embed_bits
  rw [if_neg (by omega)]
  simp

/-! ### Claim C5: embedding capacity and atomicity -/

/-- C5: `embed` succeeds whenever the serialized bitstream length is at
most the number of samples (equality included), and fails with
`MessageTooLongError` carrying the maximum embeddable bit count — the
number of samples — whenever the bitstream is longer; the capacity check
precedes the embedding loop, so a failing call produces no modified
samples (the error branch carries no output at all), regardless of
whether a progress callback was supplied. -/
theorem C5_capacity (samples : List Nat) (bits : List Char) (cb : Bool) :
    (bits.length ≤ samples.length →
      embed_bits samples bits false = .ok (embedLoop samples bits))
    ∧ (samples.length < bits.length →
      embed_bits samples bits cb = .error (.messageTooLong samples.length)) := by
  constructor
  · intro h
    exact embed_bits_ok samples bits h
  · intro h
    unfold embed_bits
    rw [if_pos h]

/-- C5 witness: embedding 2 bits into 2 samples (exact capacity) succeeds;
embedding 1 bit into 0 samples fails with the capacity 0 reported. -/
theorem C5_capacity_witness :
    embed_bits [7, 8] ['1', '0'] false = .ok (embedLoop [7, 8] ['1', '0'])
    ∧ embed_bits [] ['1'] true = .error (.messageTooLong 0) :=
  ⟨(C5_capacity [7, 8] ['1', '0'] false).1 (by decide),
   (C5_capacity [] ['1'] true).2 (by decide)⟩

/-! ### Claim C6: LSB-only mutation and frame condition -/

/-- C6: embedding with enough capacity returns the loop's output, which
has the same length as the input; sample `i` below the bitstream length
becomes `(samples[i] & ~1) | bit[i]`, samples at or beyond the bitstream
length are unchanged; every sample keeps all bits above the LSB
(`original & ~1 == modified & ~1`) and its signed 16-bit value changes
by at most 1 in magnitude.  (The transform is a pure function of the
input list, so the caller's buffer is never mutated.) -/
theorem C6_lsb_frame (samples : List Nat) (bits : List Char)
    (hcap : bits.length ≤ samples.length)
    (hrange : ∀ x ∈ samples, x < 65536) :
    embed_bits samples bits false = .ok (embedLoop samples bits)
    ∧ (embedLoop samples bits).length = samples.length
    ∧ (∀ i, i < bits.length →
        (embedLoop samples bits).getD i 0
          = embedSample (samples.getD i 0) (bits.getD i ' '))
    ∧ (∀ i, bits.length ≤ i →
        (embedLoop samples bits).getD i 0 = samples.getD i 0)
    ∧ (∀ i, i < samples.length →
        (embedLoop samples bits).getD i 0 &&& 0xFFFE = samples.getD i 0 &&& 0xFFFE
        ∧ (signedVal ((embedLoop samples bits).getD i 0)
            - signedVal (samples.getD i 0)).natAbs ≤ 1) := by
  refine ⟨embed_bits_ok samples bits hcap, embedLoop_length samples bits,
    fun i hi => embedLoop_getD_lt samples bits i hi hcap,
    fun i hi => embedLoop_getD_ge samples bits i hi, fun i hi => ?_⟩
  by_cases hib : i < bits.length
  · have hs : samples.getD i 0 < 65536 := by
      have : samples.getD i 0 ∈ samples := by
        rw [List.getD_eq_getElem?_getD]
        have hlt := List.getElem?_eq_getElem hi
        rw [hlt]
        exact List.getElem_mem hi
      exact hrange _ this
    rw [embedLoop_getD_lt samples bits i hib hcap]
    set s := samples.getD i 0 with hsdef
    set b := bits.getD i ' ' with hbdef
    have heq := embedSample_eq s b hs
    constructor
    · have hv := bitVal_le_one b
      have h1 : embedSample s b &&& 0xFFFE = 2 * ((embedSample s b / 2) % 32768) :=
        land_mask_eq _
      have h2 : s &&& 0xFFFE = 2 * ((s / 2) % 32768) := land_mask_eq _
      have hlt := embedSample_lt s b hs
      rw [h1, h2]
      have he2 : (embedSample s b / 2) % 32768 = embedSample s b / 2 :=
        Nat.mod_eq_of_lt (by omega)
      have hs2 : (s / 2) % 32768 = s / 2 := Nat.mod_eq_of_lt (by omega)
      rw [he2, hs2]
      omega
    · exact signedVal_sub_le s (embedSample s b) hs heq
  · rw [embedLoop_getD_ge samples bits i (by omega)]
    simp

/-- C6 witness: embedding bits `10` into the samples `[3, 65535]`
(the pattern of int16 `-1`) gives `[3, 65534]`: sample 0 keeps value 3
(LSB already 1), sample 1 becomes the pattern of `-2`. -/
theorem C6_lsb_frame_witness :
    embed_bits [3, 65535] ['1', '0'] false = .ok (embedLoop [3, 65535] ['1', '0'])
    ∧ (embedLoop [3, 65535] ['1', '0']).getD 1 0 &&& 0xFFFE
        = ([3, 65535] : List Nat).getD 1 0 &&& 0xFFFE
    ∧ (signedVal ((embedLoop [3, 65535] ['1', '0']).getD 1 0)
        - signedVal (([3, 65535] : List Nat).getD 1 0)).natAbs ≤ 1 := by
  have h := C6_lsb_frame [3, 65535] ['1', '0'] (by decide) (by decide)
  exact ⟨h.1, (h.2.2.2.2 1 (by decide)).1, (h.2.2.2.2 1 (by decide)).2⟩

/-! ### Claim C9: progress callbacks -/

/-- C9 (amended): supplying a progress callback never changes a
successful output, but it is not harmless: when the embedded bitstream
(respectively the sample sequence being extracted) is non-empty and has
fewer than 100 elements, the progress condition `i % (total // 100)`
divides by zero, so the call fails with `ZeroDivisionError`; with at
least 100 elements (or none, when the loop never runs) the callback has
no effect on the result. -/
theorem C9_callback (samples : List Nat) (bits : List Char) :
    ((bits = [] ∨ 100 ≤ bits.length) →
      embed_bits samples bits true = embed_bits samples bits false)
    ∧ (bits ≠ [] → bits.length < 100 → bits.length ≤ samples.length →
      embed_bits samples bits true = .error .zeroDivision)
    ∧ ((samples = [] ∨ 100 ≤ samples.length) →
      extract_message samples true = extract_message samples false)
    ∧ (samples ≠ [] → samples.length < 100 →
      extract_message samples true = .error .zeroDivision) := by
  refine ⟨fun h => ?_, fun h1 h2 h3 => ?_, fun h => ?_, fun h1 h2 => ?_⟩
  · unfold embed_bits
    rcases h with h | h
    · subst h
      simp
    · have : ¬ (bits.length < 100) := by omega
      simp [this]
  · unfold embed_bits
    rw [if_neg (by omega), if_pos]
    simp only [Bool.and_eq_true, Bool.not_eq_true', List.isEmpty_eq_false,
      decide_eq_true_eq]
    exact ⟨⟨trivial, h1⟩, h2⟩
  · unfold extract_message extract_bits
    rcases h with h | h
    · subst h
      simp
    · have : ¬ (samples.length < 100) := by omega
      simp [this]
  · unfold extract_message extract_bits
    rw [if_pos]
    · rfl
    · simp only [Bool.and_eq_true, Bool.not_eq_true', List.isEmpty_eq_false,
        decide_eq_true_eq]
      exact ⟨⟨trivial, h1⟩, h2⟩

/-- C9 counterexample: the empty message serializes to a 21-bit stream,
which fits in 100 samples; embedding it without a callback succeeds, yet
the same call with a progress callback fails with `ZeroDivisionError`
(`total_bits // 100` is 0), so supplying a callback does change the
result and introduces a failure. -/
theorem C9_callback_cex :
    embed_bits (List.replicate 100 0) (morse_to_bitstream (text_to_morse [])) true
      = .error .zeroDivision
    ∧ embed_bits (List.replicate 100 0) (morse_to_bitstream (text_to_morse [])) false
      = .ok (embedLoop (List.replicate 100 0) (morse_to_bitstream (text_to_morse []))) := by
  constructor <;> rfl

/-- C9 witness: extracting from 50 samples with a progress callback
fails with `ZeroDivisionError`. -/
theorem C9_callback_witness :
    extract_message (List.replicate 50 3) true = .error .zeroDivision :=
  (C9_callback (List.replicate 50 3) []).2.2.2 (by decide) (by decide)

/-! ### Claim C10: the empty message -/

/-- C10: `text_to_morse` of the empty message is empty;
`morse_to_bitstream` of the empty Morse string is the single bit `'1'`
(the dot emitted by the appended `'|'` sentinel, which survives the
trailing-zero stripping) followed immediately by the all-zero end-marker
constant; decoding that bitstream yields the Morse string `"."` and
hence the text `"E"` — so the empty message does not decode back to the
empty message, also through the full embed/extract pipeline. -/
theorem C10_empty_message :
    text_to_morse [] = []
    ∧ morse_to_bitstream [] = '1' :: END_MARKER_BITS
    ∧ bitstream_to_morse (morse_to_bitstream []) = .ok ['.']
    ∧ morse_to_text ['.'] = ['E']
    ∧ ((embed_message (List.replicate 100 0) [] false).bind
        (fun s => extract_message s false)) = .ok ['E'] :=
  ⟨rfl, rfl, rfl, rfl, rfl⟩

/-! ### Claim C1: the end-to-end round trip is broken -/

/-- C1: evaluation of the full pipeline at the spec's concrete scenario:
embedding the message `"HI"` into 100 zero-valued samples and then
extracting does not return `"HI"` — it returns `"HS"`.  The `'|'`
sentinel is appended to the Morse string without a separator, so its
dot merges into the final character's symbol group: `I` (`..`) is
decoded as `...` = `S`. -/
theorem C1_roundtrip_broken :
    ((embed_message (List.replicate 100 0) ['H', 'I'] false).bind
      (fun s => extract_message s false)) = .ok ['H', 'S']
    ∧ (['H', 'S'] : List Char) ≠ ['H', 'I'] :=
  ⟨rfl, by decide⟩

/-! ### Claim C2: the bitstream round trip is broken -/

/-- C2: evaluation at the one-token Morse string `"."`: serializing and
deserializing yields `".."`, not `"."` — the appended `'|'` sentinel
emits a dot bit one intra-symbol gap after the final real symbol, so the
decoder reads it as an extra dot of the last character.  The difference
is a dot token, not whitespace, so no whitespace normalization can
reconcile the two. -/
theorem C2_bitstream_roundtrip_broken :
    bitstream_to_morse (morse_to_bitstream ['.']) = .ok ['.', '.']
    ∧ (['.', '.'] : List Char) ≠ ['.'] :=
  ⟨rfl, by decide⟩

/-! ### Claim C3: the end marker -/

/-- C3 counterexample: the claim's 21-bit marker does not match the
code: `END_MARKER_BITS` has 20 zeros, and the bit before it is `'1'`,
so the last 21 bits of an encoded bitstream are never all zero.  At the
empty Morse string the whole 21-bit output is `'1'` followed by 20
zeros. -/
theorem C3_marker21_cex :
    (morse_to_bitstream []).length = 21
    ∧ (morse_to_bitstream []).drop ((morse_to_bitstream []).length - 21)
        ≠ List.replicate 21 '0' := by
  constructor
  · rfl
  · decide

/-! ### Structure of the encoder output -/

lemma dropLastN_append (l m : List Char) : dropLastN m.length (l ++ m) = l := by
  unfold dropLastN
  rw [List.length_append, Nat.add_sub_cancel]
  exact List.take_left l m

lemma pySplitChar_cons (sep a : Char) (rest : List Char) :
    pySplitChar sep (a :: rest)
      = match pySplitChar sep rest with
        | [] => [[]]
        | g :: gs => if a = sep then [] :: g :: gs else (a :: g) :: gs := rfl

/-- Splitting `s ++ [c]` on a separator different from `c`: the last
piece ends with `c`. -/
lemma splitChar_last (sep c : Char) (hc : c ≠ sep) (s : List Char) :
    ∃ gs g, pySplitChar sep (s ++ [c]) = gs ++ [g ++ [c]] := by
  induction s with
  | nil =>
    refine ⟨[], [], ?_⟩
    simp [pySplitChar, hc]
  | cons a s ih =>
    obtain ⟨gs, g, hrec⟩ := ih
    rw [List.cons_append, pySplitChar_cons, hrec]
    cases gs with
    | nil =>
      by_cases ha : a = sep
      · exact ⟨[[]], g, by simp [ha]⟩
      · exact ⟨[], a :: g, by simp [ha]⟩
    | cons g0 gs0 =>
      by_cases ha : a = sep
      · exact ⟨[] :: g0 :: gs0, g, by simp [ha]⟩
      · exact ⟨(a :: g0) :: gs0, g, by simp [ha]⟩

lemma encodeChar_last (bs cl : List Char) :
    encodeChar bs (cl ++ ['|'])
      = ((cl.foldl (fun acc sym => acc ++ symbolBits sym) bs) ++ ['1']) ++ ['0', '0', '0'] := by
  unfold encodeChar
  rw [List.foldl_append]
  have h1 : (['|'] : List Char).foldl (fun acc sym => acc ++ symbolBits sym)
      (cl.foldl (fun acc sym => acc ++ symbolBits sym) bs)
      = ((cl.foldl (fun acc sym => acc ++ symbolBits sym) bs) ++ ['1']) ++ ['0'] := by
    simp [symbolBits]
  rw [h1]
  congr 1
  exact dropLastN_append _ ['0']

lemma encodeWord_last (bs w : List Char) :
    ∃ v, encodeWord bs (w ++ ['|']) = v ++ '1' :: List.replicate 7 '0' := by
  obtain ⟨gs, g, hsplit⟩ := splitChar_last ' ' '|' (by decide) w
  refine ⟨(g.foldl (fun acc sym => acc ++ symbolBits sym)
    (gs.foldl encodeChar bs)), ?_⟩
  unfold encodeWord
  rw [hsplit, List.foldl_append]
  have h1 : ([g ++ ['|']] : List (List Char)).foldl encodeChar (gs.foldl encodeChar bs)
      = encodeChar (gs.foldl encodeChar bs) (g ++ ['|']) := rfl
  rw [h1, encodeChar_last]
  have h2 : (['0', '0', '0'] : List Char).length = 3 := rfl
  rw [← h2, dropLastN_append]
  simp

lemma rstrip0_append_zeros (l : List Char) (k : Nat) :
    rstrip0 (l ++ List.replicate k '0') = rstrip0 l := by
  unfold rstrip0
  rw [List.reverse_append, List.reverse_replicate]
  congr 1
  induction k with
  | zero => simp
  | succ k ih =>
    rw [List.replicate_succ, List.cons_append, List.dropWhile_cons]
    simp only [decide_eq_true_eq, if_pos rfl]
    exact ih

lemma rstrip0_append_one (l : List Char) : rstrip0 (l ++ ['1']) = l ++ ['1'] := by
  unfold rstrip0
  rw [List.reverse_append]
  have h1 : (['1'] : List Char).reverse = ['1'] := rfl
  rw [h1, List.singleton_append, List.dropWhile_cons]
  simp

/-! ### Claim C3: amended end-marker invariant -/

/-- C3 (amended): for every Morse string, the encoded bitstream ends
with the fixed 20-bit all-zero end marker appended after all trailing
zero bits of the message body were stripped; the stripped body is never
empty (the `'|'` sentinel always contributes a one-bit), so the bit
immediately before the marker is always `'1'` and the marker's leading
edge is unambiguous. -/
theorem C3_end_marker (morse : List Char) :
    ∃ p, morse_to_bitstream morse = p ++ '1' :: END_MARKER_BITS := by
  obtain ⟨gs, g, hsplit⟩ := splitChar_last '/' '|' (by decide) morse
  unfold morse_to_bitstream
  rw [hsplit, List.foldl_append]
  have h1 : ([g ++ ['|']] : List (List Char)).foldl encodeWord (gs.foldl encodeWord [])
      = encodeWord (gs.foldl encodeWord []) (g ++ ['|']) := rfl
  rw [h1]
  obtain ⟨v, hw⟩ := encodeWord_last (gs.foldl encodeWord []) g
  rw [hw]
  have h2 : v ++ '1' :: List.replicate 7 '0' = (v ++ ['1']) ++ List.replicate 7 '0' := by
    simp
  rw [h2, rstrip0_append_zeros, rstrip0_append_one]
  exact ⟨v, by simp⟩

/-! ### Marker detection -/

lemma findMarker_none_iff (bits : List Char) :
    findMarker bits = none ↔ hasZeroRun 20 bits = false := by
  unfold findMarker hasZeroRun
  rw [List.find?_eq_none]
  constructor
  · intro h
    cases hany : (List.range bits.length).any
        (fun i => (bits.drop i).take 20 == List.replicate 20 '0') with
    | false => rfl
    | true =>
      obtain ⟨i, hi, hp⟩ := List.any_eq_true.1 hany
      refine absurd ?_ (h i hi)
      simp only [decide_eq_true_eq]
      have : (bits.drop i).take 20 = List.replicate 20 '0' := by
        exact beq_iff_eq.1 hp
      exact this
  · intro h i hi
    simp only [decide_eq_true_eq]
    intro heq
    have hany : (List.range bits.length).any
        (fun i => (bits.drop i).take 20 == List.replicate 20 '0') = true :=
      List.any_eq_true.2 ⟨i, hi, beq_iff_eq.2 heq⟩
    rw [h] at hany
    cases hany

lemma findMarker_some_lt (bits : List Char) (i : Nat)
    (h : findMarker bits = some i) : i < bits.length := by
  have := List.mem_of_find?_eq_some h
  exact List.mem_range.1 this

/-! ### Claim C4: decoder marker detection (amended) -/

/-- C4 (amended): `bitstream_to_morse` fails with `MessageNotFoundError`
if and only if the input contains no run of 20 consecutive zero bits
(the length of `END_MARKER_BITS`); when the marker is present, the
result is computed from exactly the prefix of the input strictly before
the marker's first occurrence. -/
theorem C4_marker_detection (bits : List Char) :
    (bitstream_to_morse bits = .error .messageNotFound ↔ hasZeroRun 20 bits = false)
    ∧ (∀ i, findMarker bits = some i →
        bitstream_to_morse bits = decodeTruncated (bits.take i)) := by
  constructor
  · unfold bitstream_to_morse
    cases hfm : findMarker bits with
    | none =>
      exact ⟨fun _ => (findMarker_none_iff bits).1 hfm, fun _ => rfl⟩
    | some i =>
      have hne : decodeTruncated (bits.take i) ≠ .error .messageNotFound := by
        unfold decodeTruncated
        cases bits.take i <;> simp
      have hrun : hasZeroRun 20 bits = true := by
        cases hz : hasZeroRun 20 bits with
        | true => rfl
        | false =>
          rw [← findMarker_none_iff bits] at hz
          rw [hfm] at hz
          cases hz
      exact ⟨fun h => absurd h hne, fun h => by rw [hrun] at h; cases h⟩
  · intro i h
    unfold bitstream_to_morse
    rw [h]

/-- C4 counterexample for the claim as stated (21-zero marker): the
input `'1'` followed by 20 zeros contains no run of 21 consecutive
zeros, yet `bitstream_to_morse` does not raise `MessageNotFoundError` —
it finds the 20-zero marker and decodes successfully. -/
theorem C4_marker21_cex :
    hasZeroRun 21 ('1' :: List.replicate 20 '0') = false
    ∧ bitstream_to_morse ('1' :: List.replicate 20 '0') = .ok ['.'] :=
  ⟨rfl, rfl⟩

/-- C4 witness: on `'1'` followed by 20 zeros the marker is first found
at index 1, and decoding operates on the one-character prefix. -/
theorem C4_marker_detection_witness :
    bitstream_to_morse ('1' :: List.replicate 20 '0')
      = decodeTruncated (('1' :: List.replicate 20 '0').take 1)
    ∧ decodeTruncated (('1' :: List.replicate 20 '0').take 1) = .ok ['.'] :=
  ⟨(C4_marker_detection ('1' :: List.replicate 20 '0')).2 1 rfl, rfl⟩

/-! ### Claim C8: empty prefix before the marker (amended) -/

/-- C8 (amended): when the 20-zero marker is present, decoding returns
normally whenever the marker's first occurrence is at a positive
position; when the first occurrence is at position 0 the truncated
bitstream is empty and the reference code faults (`bits[0]` raises
`IndexError`) instead of returning. -/
theorem C8_empty_truncation (bits : List Char) (i : Nat)
    (h : findMarker bits = some i) :
    (i = 0 → bitstream_to_morse bits = .error .indexError)
    ∧ (0 < i → ∃ m, bitstream_to_morse bits = .ok m) := by
  have hb : bitstream_to_morse bits = decodeTruncated (bits.take i) := by
    unfold bitstream_to_morse
    rw [h]
  constructor
  · intro h0
    subst h0
    rw [hb]
    rfl
  · intro h0
    have hlen : i < bits.length := findMarker_some_lt bits i h
    rw [hb]
    cases bits with
    | nil => simp at hlen
    | cons b rest =>
      cases i with
      | zero => omega
      | succ i => exact ⟨_, rfl⟩

/-- C8 counterexample for the claim as stated: the input consisting of
exactly the 20-zero marker has its first marker occurrence at position
0, and `bitstream_to_morse` raises `IndexError` rather than returning. -/
theorem C8_empty_truncation_cex :
    bitstream_to_morse (List.replicate 20 '0') = .error .indexError := rfl

/-- C8 witness: 21 zeros also put the marker's first occurrence at
position 0, and the decoder faults with `IndexError`. -/
theorem C8_empty_truncation_witness :
    bitstream_to_morse (List.replicate 21 '0') = .error .indexError :=
  (C8_empty_truncation (List.replicate 21 '0') 0 rfl).1 rfl

/-! ### The Morse alphabet and whitespace splitting -/

lemma morse_pairs_reverse : ∀ p ∈ MORSE_PAIRS, reverseLookup p.2 = some p.1 := by
  decide

lemma morse_pairs_code_ok :
    ∀ p ∈ MORSE_PAIRS, p.2 ≠ [] ∧ ∀ c ∈ p.2, isSpaceChar c = false := by
  decide

lemma morseLookup_mem (c : Char) (v : List Char) (h : morseLookup c = some v) :
    (c, v) ∈ MORSE_PAIRS := by
  unfold morseLookup at h
  cases hf : MORSE_PAIRS.find? (fun p => p.1 = c) with
  | none => rw [hf] at h; cases h
  | some p =>
    rw [hf] at h
    have hp1 : p.1 = c := by
      have := List.find?_some hf
      simpa using this
    have hp2 : p.2 = v := by
      simp only [Option.map_some'] at h
      exact Option.some.inj h
    have hmem := List.mem_of_find?_eq_some hf
    rw [← hp1, ← hp2]
    exact hmem

lemma pySplitWsAux_nil (acc : List Char) :
    pySplitWsAux [] acc = if acc = [] then [] else [acc.reverse] := rfl

lemma pySplitWsAux_cons (c : Char) (rest acc : List Char) :
    pySplitWsAux (c :: rest) acc
      = if isSpaceChar c then
          (if acc = [] then pySplitWsAux rest []
           else acc.reverse :: pySplitWsAux rest [])
        else pySplitWsAux rest (c :: acc) := rfl

lemma pySplitWsAux_nows (x : List Char) :
    ∀ acc : List Char, (∀ c ∈ x, isSpaceChar c = false) →
      pySplitWsAux x acc
        = if acc.reverse ++ x = [] then [] else [acc.reverse ++ x] := by
  induction x with
  | nil =>
    intro acc _
    rw [pySplitWsAux_nil]
    by_cases hacc : acc = []
    · subst hacc
      simp
    · rw [if_neg hacc, List.append_nil,
        if_neg (by simpa [List.reverse_eq_nil_iff] using hacc)]
  | cons c x ih =>
    intro acc hx
    rw [pySplitWsAux_cons, hx c (List.mem_cons_self c x), if_neg (by simp)]
    rw [ih (c :: acc) (fun d hd => hx d (List.mem_cons_of_mem c hd))]
    rw [if_neg (by simp), if_neg (by simp)]
    simp

lemma pySplitWsAux_token (x : List Char) :
    ∀ (rest acc : List Char), (∀ c ∈ x, isSpaceChar c = false) →
      (acc ≠ [] ∨ x ≠ []) →
      pySplitWsAux (x ++ ' ' :: rest) acc
        = (acc.reverse ++ x) :: pySplitWsAux rest [] := by
  induction x with
  | nil =>
    intro rest acc _ hne
    have hacc : acc ≠ [] := by
      rcases hne with h | h
      · exact h
      · exact absurd rfl h
    show pySplitWsAux (' ' :: rest) acc = _
    rw [pySplitWsAux_cons, if_pos (by decide), if_neg hacc]
    simp
  | cons c x ih =>
    intro rest acc hx _
    show pySplitWsAux (c :: (x ++ ' ' :: rest)) acc = _
    rw [pySplitWsAux_cons, hx c (List.mem_cons_self c x), if_neg (by simp)]
    rw [ih rest (c :: acc) (fun d hd => hx d (List.mem_cons_of_mem c hd))
      (Or.inl (by simp))]
    simp

lemma pySplitWs_join (codes : List (List Char))
    (h : ∀ x ∈ codes, x ≠ [] ∧ ∀ c ∈ x, isSpaceChar c = false) :
    pySplitWs (joinSep ' ' codes) = codes := by
  induction codes with
  | nil => rfl
  | cons x codes ih =>
    obtain ⟨hx0, hx1⟩ := h x (List.mem_cons_self x codes)
    cases codes with
    | nil =>
      show pySplitWsAux x [] = [x]
      rw [pySplitWsAux_nows x [] hx1]
      simp [hx0]
    | cons y tl =>
      show pySplitWsAux (x ++ ' ' :: joinSep ' ' (y :: tl)) [] = _
      rw [pySplitWsAux_token x (joinSep ' ' (y :: tl)) [] hx1 (Or.inr hx0)]
      have := ih (fun z hz => h z (List.mem_cons_of_mem x hz))
      simp only [List.nil_append, List.reverse_nil]
      exact congrArg _ this

/-! ### Claim C7: text/Morse round-trip identity -/

lemma filterMap_codes (text : List Char)
    (h : ∀ c ∈ text, (morseLookup c.toUpper).isSome = true) :
    (text.map (fun c => (morseLookup c.toUpper).getD [])).filterMap reverseLookup
      = text.map Char.toUpper := by
  induction text with
  | nil => rfl
  | cons c text ih =>
    obtain ⟨v, hv⟩ := Option.isSome_iff_exists.1 (h c (List.mem_cons_self c text))
    have hmem : (c.toUpper, v) ∈ MORSE_PAIRS := morseLookup_mem _ _ hv
    have hrev : reverseLookup v = some c.toUpper := by
      simpa using morse_pairs_reverse _ hmem
    simp only [List.map_cons, List.filterMap_cons, hv, Option.getD_some, hrev]
    rw [ih (fun d hd => h d (List.mem_cons_of_mem c hd))]

/-- C7: for every message whose characters, after uppercasing, all lie
in the Morse alphabet (the space character included), converting to
Morse and back yields the uppercased message. -/
theorem C7_text_roundtrip (text : List Char)
    (h : ∀ c ∈ text, (morseLookup c.toUpper).isSome = true) :
    morse_to_text (text_to_morse text) = text.map Char.toUpper := by
  unfold morse_to_text text_to_morse
  rw [pySplitWs_join]
  · exact filterMap_codes text h
  · intro x hx
    obtain ⟨c, hc, rfl⟩ := List.mem_map.1 hx
    obtain ⟨v, hv⟩ := Option.isSome_iff_exists.1 (h c hc)
    have hmem : (c.toUpper, v) ∈ MORSE_PAIRS := morseLookup_mem _ _ hv
    have := morse_pairs_code_ok _ hmem
    simpa [hv] using this

/-- C7 witness: the message `"h 1"` (letter, space, digit) round-trips
to its uppercase form `"H 1"`. -/
theorem C7_text_roundtrip_witness :
    morse_to_text (text_to_morse ['h', ' ', '1'])
      = List.map Char.toUpper ['h', ' ', '1'] :=
  C7_text_roundtrip ['h', ' ', '1'] (by decide)

end MorseStegano
